import Mathlib

/-!
Verification of the episode-ingestion core of a podcast static-site generator
(`src/main.rs`).  The document text is modelled as a list of UTF-8 bytes
(`List Byte`), matching the byte-offset arithmetic (`content[4..]`,
`str::find`, `content[index + 4..]`) of the Rust source.  The front-matter
parser (`serde_yml::from_str::<Episode>`) is an external library; it is kept
abstract as a function parameter `MetaParse`, so every theorem holds for an
arbitrary parser.  Filesystem reads always succeed in the model: a directory
tree is passed in as the list of (path, content) pairs that `fs::read_dir` /
`fs::read_to_string` would produce, in enumeration order.
-/

/-- A byte of a UTF-8 encoded document (value 0..255). -/
abbrev Byte := Nat

/-- The `Episode` struct of `main.rs`.  `date` (`DateTime<Utc>` in the source)
is modelled as an abstract timestamp; no claim inspects it.  `path` is the
`PathBuf` the loader fills in, kept as a plain string; `body` is the raw byte
region copied out of the document. -/
structure Episode where
  title : String
  date : Int
  slug : Option String
  file : String
  duration : String
  length : String
  reddit : Option String
  path : String
  body : List Byte
deriving Repr, DecidableEq

/-- The errors of the loader.  `bail!` and `panic!` both abort the whole run
in the source; each distinct abort site gets one constructor.
`bodySlicePanic` models the Rust byte-slice panic that `content[index + 4..]`
raises when `index + 4` is past the end of the string or not a character
boundary. -/
inductive LoadError where
  | abnormalDash (path : String)
  | smartQuote (path : String)
  | noOpening (path : String)
  | noClosing (path : String)
  | parseFail (msg : String) (path : String)
  | bodySlicePanic (path : String)
  | noExtension (path : String)
  | notMarkdown (path : String)
  | duplicateFile (file : String) (firstPath : String) (currentPath : String)
deriving Repr, DecidableEq

/-- UTF-8 encoding of one scalar value (1 to 4 bytes). -/
def utf8EncodeChar (c : Char) : List Byte :=
  let n := c.toNat
  if n < 128 then [n]
  else if n < 2048 then [192 + n / 64, 128 + n % 64]
  else if n < 65536 then [224 + n / 4096, 128 + (n / 64) % 64, 128 + n % 64]
  else [240 + n / 262144, 128 + (n / 4096) % 64, 128 + (n / 64) % 64, 128 + n % 64]

/-- UTF-8 bytes of a string. -/
def utf8Bytes (s : String) : List Byte :=
  (s.data.map utf8EncodeChar).flatten

/-- `const ABNORMAL_DASH: char = '⁃';` (U+2043), as UTF-8 bytes. -/
def abnormalDashBytes : List Byte := utf8Bytes "⁃"

/-- `const SMART_QUOTES: [char; 4] = ['“', '‘', '’', '”'];` as UTF-8 bytes,
in source order. -/
def smartQuotesBytes : List (List Byte) :=
  [utf8Bytes "“", utf8Bytes "‘", utf8Bytes "’", utf8Bytes "”"]

/-- Index of the first occurrence of `pat` in `s` (Rust `str::find` on a
string pattern, byte-indexed). -/
def findSub (pat : List Byte) : List Byte → Option Nat
  | [] => if pat.isPrefixOf ([] : List Byte) then some 0 else none
  | b :: rest =>
    if pat.isPrefixOf (b :: rest) then some 0
    else (findSub pat rest).map (fun i => i + 1)

/-- Rust `str::contains` for a fixed pattern. -/
def containsSub (pat s : List Byte) : Bool :=
  (findSub pat s).isSome

/-- The opening delimiter `"---\n"` checked by `content.starts_with("---\n")`. -/
def openingDelim : List Byte := utf8Bytes "---\n"

/-- The closing delimiter pattern `"---"`. -/
def dashes : List Byte := utf8Bytes "---"

/-- `content[4..].find("---").map(|i| i + 4)` of the source: byte index of the
first `"---"` occurrence at or after offset 4. -/
def findClosing (content : List Byte) : Option Nat :=
  (findSub dashes (content.drop 4)).map (fun i => i + 4)

/-- The byte region `content[a..b]` of a Rust string slice (for `a ≤ b`). -/
def extract (content : List Byte) (a b : Nat) : List Byte :=
  (content.drop a).take (b - a)

/-- A UTF-8 continuation byte (`128 ≤ b < 192`). -/
def isContinuationByte (b : Byte) : Bool :=
  decide (128 ≤ b) && decide (b < 192)

/-- Rust `str::is_char_boundary`: true at 0 and at the length, false past the
end or on a continuation byte.  `&content[i..]` panics exactly when this is
false at `i`. -/
def isCharBoundary (content : List Byte) (i : Nat) : Bool :=
  if i = 0 then true
  else
    match content.get? i with
    | some b => !isContinuationByte b
    | none => decide (i = content.length)

/-- Both hygiene scans of `load_episode` pass: no abnormal dash and no smart
quote anywhere in the text. -/
def hygieneOk (content : List Byte) : Bool :=
  !containsSub abnormalDashBytes content
    && !(smartQuotesBytes.any (fun q => containsSub q content))

/-- The abstract front-matter parser (`serde_yml::from_str::<Episode>`): maps
the raw metadata region to an `Episode` (with serde-defaulted `path`/`body`)
or a decode diagnostic. -/
abbrev MetaParse := List Byte → Except String Episode

/-- `load_episode` of `main.rs`, given the bytes that `fs::read_to_string`
returned for `path`.  Check order as in the source: abnormal dash, smart
quotes, opening delimiter, closing-delimiter search, front-matter parse, then
`path`/`body` are overwritten on the parsed record.  The final body slice
`content[index + 4..]` is guarded by the Rust slice-panic condition. -/
def load_episode (parse : MetaParse) (path : String) (content : List Byte) :
    Except LoadError Episode :=
  if containsSub abnormalDashBytes content then .error (.abnormalDash path)
  else if smartQuotesBytes.any (fun q => containsSub q content) then
    .error (.smartQuote path)
  else if openingDelim.isPrefixOf content then
    match findClosing content with
    | none => .error (.noClosing path)
    | some index =>
      match parse (extract content 4 index) with
      | .error err => .error (.parseFail err path)
      | .ok fm =>
        if isCharBoundary content (index + 4) then
          .ok { fm with path := path, body := content.drop (index + 4) }
        else .error (.bodySlicePanic path)
  else .error (.noOpening path)

/-- Rust `Path::extension()` on a plain relative file path: the portion of the
file name (the part after the last `/`) that follows its last `.`; `none` when
the file name has no `.` or consists of a leading `.` only (hidden file). -/
def extension (p : String) : Option String :=
  let name := (p.data.reverse.takeWhile (fun c => c ≠ ('/' : Char))).reverse
  let rev := name.reverse
  let after := (rev.takeWhile (fun c => c ≠ ('.' : Char))).reverse
  let beforeRev := (rev.dropWhile (fun c => c ≠ ('.' : Char)))
  if beforeRev = [] then none
  else if beforeRev.drop 1 = [] then none
  else some (String.mk after)

/-- One document-level directory entry of `load_episodes`: check the
extension (`panic!` when absent, `panic!("Not a markdown file")` when not
`md`), then `load_episode`. -/
def docLoad (parse : MetaParse) (d : String × List Byte) :
    Except LoadError Episode :=
  match extension d.1 with
  | none => .error (.noExtension d.1)
  | some e =>
    if e = "md" then load_episode parse d.1 d.2
    else .error (.notMarkdown d.1)

/-- The inner `for entry in entries` loop of `load_episodes` over one series
directory: load every document, stopping at the first failure. -/
def loadDocs (parse : MetaParse) : List (String × List Byte) → Except LoadError (List Episode)
  | [] => .ok []
  | d :: rest =>
    match docLoad parse d with
    | .error e => .error e
    | .ok ep =>
      match loadDocs parse rest with
      | .error e => .error e
      | .ok eps => .ok (ep :: eps)

/-- Lookup in the `HashMap<String, PathBuf>` of the duplicate check, modelled
as a key-value list in insertion order (every key is inserted at most once in
the source, so any map with the same lookup behaviour is equivalent). -/
def lookupFile (f : String) : List (String × String) → Option String
  | [] => none
  | kv :: rest => if kv.1 = f then some kv.2 else lookupFile f rest

/-- The `for episode in &episodes` duplicate scan: walk the accumulated
episodes in order; on the first `file` value already in the map, return the
shared value, the earlier-seen path from the map, and the current episode's
path. -/
def findDupAux (seen : List (String × String)) :
    List Episode → Option (String × String × String)
  | [] => none
  | e :: rest =>
    match lookupFile e.file seen with
    | some p => some (e.file, p, e.path)
    | none => findDupAux (seen ++ [(e.file, e.path)]) rest

/-- The duplicate check run after each series, over all episodes accumulated
so far (`files` starts empty on each run). -/
def findDup (episodes : List Episode) : Option (String × String × String) :=
  findDupAux [] episodes

/-- The outer `for series in serieses` loop of `load_episodes`: `acc` is the
`episodes` vector accumulated across the series processed so far. -/
def load_episodes_aux (parse : MetaParse) (acc : List Episode) :
    List (List (String × List Byte)) → Except LoadError (List Episode)
  | [] => .ok acc
  | series :: rest =>
    match loadDocs parse series with
    | .error e => .error e
    | .ok eps =>
      match findDup (acc ++ eps) with
      | some (f, p1, p2) => .error (.duplicateFile f p1 p2)
      | none => load_episodes_aux parse (acc ++ eps) rest

/-- `load_episodes` of `main.rs`: the directory tree is the list of series,
each series the list of its (path, content) document entries, in enumeration
order. -/
def load_episodes (parse : MetaParse)
    (tree : List (List (String × List Byte))) : Except LoadError (List Episode) :=
  load_episodes_aux parse [] tree

/-- The episodes of one series, when its documents all load (and `[]`
otherwise; only used under that hypothesis). -/
def seriesEps (parse : MetaParse) (series : List (String × List Byte)) : List Episode :=
  match loadDocs parse series with
  | .ok eps => eps
  | .error _ => []

/-- All episodes of a tree in processing order. -/
def episodesOf (parse : MetaParse) (tree : List (List (String × List Byte))) : List Episode :=
  (tree.map (seriesEps parse)).flatten

/-- The `file` fields, in order. -/
def filesOf (es : List Episode) : List String :=
  es.map Episode.file

/-- Every document entry of the tree loads on its own: markdown extension and
a successful `load_episode`. -/
def allDocsOk (parse : MetaParse) (tree : List (List (String × List Byte))) : Bool :=
  tree.all (fun s => (loadDocs parse s).isOk)

/-- The message text of each abort site, exactly as formatted by the source
(`{path:?}` debug-formats a path by quoting it). -/
def errMsg : LoadError → String
  | .abnormalDash p => "Abnormal dash found in: " ++ p
  | .smartQuote p => "Smart quote found in: " ++ p ++ ". Please replace it with a normal quote."
  | .noOpening p => "File does not start with '---': " ++ p
  | .noClosing p => "File does not contain the second '---', the end of the front-matter : \"" ++ p ++ "\""
  | .parseFail msg p => "Failed to parse front matter: " ++ msg ++ " in \"" ++ p ++ "\""
  | .bodySlicePanic p => "byte index out of bounds in body slice of: " ++ p
  | .noExtension p => "Failed to get extension: \"" ++ p ++ "\""
  | .notMarkdown p => "Not a markdown file: " ++ p
  | .duplicateFile f p1 p2 => "The same mp3 file " ++ f ++ " was used twice in " ++ p1 ++ " and in " ++ p2

/-- `needle` occurs contiguously inside `hay`. -/
def strContains (hay needle : String) : Prop :=
  needle.data <:+: hay.data

/-- Modelled from the spec (§4.5 Duplicate Guard), for comparison with the
source's map-based `findDup`: scan the accumulated collection in order and,
at the first episode whose `file` value was already carried by an earlier
episode, report the shared value, the earlier-seen episode's path and the
current episode's path. -/
def specFirstDuplicateAux (seenEps : List Episode) :
    List Episode → Option (String × String × String)
  | [] => none
  | e :: rest =>
    match seenEps.find? (fun a => decide (a.file = e.file)) with
    | some a => some (e.file, a.path, e.path)
    | none => specFirstDuplicateAux (seenEps ++ [e]) rest

/-- Spec-side first-conflicting-pair scan over a whole collection. -/
def specFirstDuplicate (es : List Episode) : Option (String × String × String) :=
  specFirstDuplicateAux [] es

/-- Statement helper: positions `i < j` of the collection hold two episodes
sharing `file` value `f`, with paths `p1` (earlier-seen) and `p2`
(currently-checked). -/
def dupWitnessAt (es : List Episode) (f p1 p2 : String) : Prop :=
  ∃ (i j : Nat) (e1 e2 : Episode), i < j ∧ es[i]? = some e1 ∧ es[j]? = some e2 ∧
    e1.file = f ∧ e1.path = p1 ∧ e2.file = f ∧ e2.path = p2

/-- Stand-in front-matter parser for concrete test documents: accepts every
metadata region, deriving `file` from its bytes so distinct regions give
distinct `file` values. -/
def parseStub : MetaParse := fun meta =>
  .ok { title := "t", date := 0, slug := none,
        file := String.mk (meta.map Char.ofNat),
        duration := "d", length := "l", reddit := none, path := "", body := [] }

/-- Stand-in parser that rejects every metadata region. -/
def parseReject : MetaParse := fun _ => .error "boom"

/-- Stand-in parser behaving as `serde_yml` would on a front matter that
carries its own `path:` and `body:` keys: the parsed record arrives with
non-empty `path` and `body`. -/
def parseEvil : MetaParse := fun _ =>
  .ok { title := "t", date := 0, slug := none, file := "f",
        duration := "d", length := "l", reddit := none,
        path := "from-metadata", body := utf8Bytes "from-metadata-body" }

/-- Decidable equality of loader results, for evaluating the model on
concrete inputs. -/
instance {e a : Type} [DecidableEq e] [DecidableEq a] : DecidableEq (Except e a) := fun x y =>
  match x, y with
  | .ok u, .ok v =>
    if h : u = v then .isTrue (congrArg Except.ok h)
    else .isFalse (fun hc => h (Except.ok.inj hc))
  | .error u, .error v =>
    if h : u = v then .isTrue (congrArg Except.error h)
    else .isFalse (fun hc => h (Except.error.inj hc))
  | .ok _, .error _ => .isFalse (fun hc => Except.noConfusion hc)
  | .error _, .ok _ => .isFalse (fun hc => Except.noConfusion hc)

/-! ### Concrete fixtures for witnesses and counterexamples -/

/-- A small valid document with metadata region `"A\n"` and body `"x"`. -/
def docA : List Byte := utf8Bytes "---\nA\n---\nx"

/-- Same metadata region as `docA` (hence the same derived `file` under
`parseStub`), different body. -/
def docA2 : List Byte := utf8Bytes "---\nA\n---\ny"

/-- A valid document with a different metadata region `"B\n"`. -/
def docB : List Byte := utf8Bytes "---\nB\n---\nx"

/-- A valid document with body `"real"`. -/
def docW10 : List Byte := utf8Bytes "---\nA\n---\nreal"

/-- A document whose text ends exactly at the closing `---`. -/
def docAtEnd : List Byte := utf8Bytes "---\ntitle: x\n---"

/-- The record `load_episode parseEvil "w10.md" docW10` returns. -/
def epW10 : Episode :=
  { title := "t", date := 0, slug := none, file := "f", duration := "d",
    length := "l", reddit := none, path := "w10.md", body := docW10.drop 10 }

/-- Two series, one valid document each, sharing a `file` value. -/
def treeDup : List (List (String × List Byte)) := [[("a.md", docA)], [("b.md", docA2)]]

/-- Two series, one valid document each, distinct `file` values. -/
def treeOk : List (List (String × List Byte)) := [[("a.md", docA)], [("b.md", docB)]]

/-- A series of two well-formed duplicate episodes followed by a series with
a non-markdown entry. -/
def treeC6 : List (List (String × List Byte)) :=
  [[("a.md", docA), ("b.md", docA2)], [("c.txt", [])]]

/-! ### Basic helper lemmas -/

theorem strData_append (a b : String) : (a ++ b).data = a.data ++ b.data := rfl

theorem strContains_append_right (a b : String) : strContains (a ++ b) b :=
  ⟨a.data, [], by simp [strData_append]⟩

theorem strContains_mid (a b c : String) : strContains (a ++ b ++ c) b :=
  ⟨a.data, c.data, by simp [strData_append]⟩

theorem findSub_eq_none (pat : List Byte) :
    ∀ s : List Byte, findSub pat s = none →
      ∀ j : Nat, pat.isPrefixOf (s.drop j) = false := by
  intro s
  induction s with
  | nil =>
    intro h j
    rw [findSub] at h
    cases hp : pat.isPrefixOf ([] : List Byte) with
    | true => simp [hp] at h
    | false => simpa using hp
  | cons b rest ih =>
    intro h j
    rw [findSub] at h
    cases hp : pat.isPrefixOf (b :: rest) with
    | true => simp [hp] at h
    | false =>
      simp only [hp, Bool.false_eq_true, if_false, Option.map_eq_none'] at h
      cases j with
      | zero => simpa using hp
      | succ k => simpa using ih h k

theorem findSub_eq_some (pat : List Byte) :
    ∀ (s : List Byte) (i : Nat), findSub pat s = some i →
      pat.isPrefixOf (s.drop i) = true ∧
        ∀ j : Nat, j < i → pat.isPrefixOf (s.drop j) = false := by
  intro s
  induction s with
  | nil =>
    intro i h
    rw [findSub] at h
    cases hp : pat.isPrefixOf ([] : List Byte) with
    | true =>
      simp only [hp, if_true, Option.some.injEq] at h
      subst h
      exact ⟨by simpa using hp, fun j hj => absurd hj (Nat.not_lt_zero j)⟩
    | false => simp [hp] at h
  | cons b rest ih =>
    intro i h
    rw [findSub] at h
    cases hp : pat.isPrefixOf (b :: rest) with
    | true =>
      simp only [hp, if_true, Option.some.injEq] at h
      subst h
      exact ⟨by simpa using hp, fun j hj => absurd hj (Nat.not_lt_zero j)⟩
    | false =>
      simp only [hp, Bool.false_eq_true, if_false, Option.map_eq_some'] at h
      obtain ⟨k, hk, rfl⟩ := h
      obtain ⟨h1, h2⟩ := ih k hk
      refine ⟨by simpa using h1, ?_⟩
      intro j hj
      cases j with
      | zero => simpa using hp
      | succ m => simpa using h2 m (Nat.lt_of_succ_lt_succ hj)

theorem extract_append_drop (l : List Byte) (a b : Nat) (h : a ≤ b) :
    extract l a b ++ l.drop b = l.drop a := by
  have hdb : l.drop b = (l.drop a).drop (b - a) := by
    rw [List.drop_drop, Nat.add_sub_cancel' h]
  rw [extract, hdb, List.take_append_drop]

theorem hygieneOk_spec (content : List Byte) (h : hygieneOk content = true) :
    containsSub abnormalDashBytes content = false ∧
      (smartQuotesBytes.any fun q => containsSub q content) = false := by
  rw [hygieneOk, Bool.and_eq_true, Bool.not_eq_true', Bool.not_eq_true'] at h
  exact h

/-! ### Duplicate-guard lemmas -/

theorem lookupFile_append (f : String) (s1 s2 : List (String × String)) :
    lookupFile f (s1 ++ s2) =
      match lookupFile f s1 with
      | some p => some p
      | none => lookupFile f s2 := by
  induction s1 with
  | nil => simp [lookupFile]
  | cons kv rest ih =>
    by_cases h : kv.1 = f <;> simp [lookupFile, h, ih]

theorem findDupAux_eq_none (es : List Episode) :
    ∀ seen, findDupAux seen es = none ↔
      ((filesOf es).Nodup ∧ ∀ e ∈ es, lookupFile e.file seen = none) := by
  induction es with
  | nil => intro seen; simp [findDupAux, filesOf]
  | cons e rest ih =>
    intro seen
    cases h : lookupFile e.file seen with
    | some p =>
      constructor
      · intro hnone
        rw [findDupAux, h] at hnone
        exact absurd hnone (by simp)
      · rintro ⟨-, hall⟩
        have he := hall e (List.mem_cons_self e rest)
        rw [h] at he
        exact absurd he (by simp)
    | none =>
      rw [findDupAux, h, ih]
      constructor
      · rintro ⟨hnd, hall⟩
        constructor
        · simp only [filesOf, List.map_cons, List.nodup_cons]
          constructor
          · intro hmem
            obtain ⟨e2, he2, hfe⟩ := List.mem_map.mp hmem
            have h2 := hall e2 he2
            rw [lookupFile_append] at h2
            cases h3 : lookupFile e2.file seen with
            | some q => rw [h3] at h2; exact absurd h2 (by simp)
            | none =>
              rw [h3] at h2
              simp only [lookupFile] at h2
              rw [if_pos hfe.symm] at h2
              exact absurd h2 (by simp)
          · simpa [filesOf] using hnd
        · intro e2 he2
          rcases List.mem_cons.mp he2 with rfl | hmem
          · exact h
          · have h2 := hall e2 hmem
            rw [lookupFile_append] at h2
            cases h3 : lookupFile e2.file seen with
            | some q => rw [h3] at h2; exact absurd h2 (by simp)
            | none => rfl
      · rintro ⟨hnd, hall⟩
        simp only [filesOf, List.map_cons, List.nodup_cons] at hnd
        obtain ⟨hnotmem, hnd⟩ := hnd
        refine ⟨by simpa [filesOf] using hnd, ?_⟩
        intro e2 he2
        rw [lookupFile_append, hall e2 (List.mem_cons_of_mem e he2)]
        have hne : e.file ≠ e2.file := by
          intro heq
          exact hnotmem (List.mem_map.mpr ⟨e2, he2, heq.symm⟩)
        simp only [lookupFile]
        rw [if_neg hne]

theorem lookupFile_pairs (l : List Episode) (f p : String) :
    lookupFile f (l.map (fun e => (e.file, e.path))) = some p →
      ∃ (i : Nat) (e1 : Episode), l[i]? = some e1 ∧ e1.file = f ∧ e1.path = p := by
  induction l with
  | nil => intro h; simp [lookupFile] at h
  | cons a rest ih =>
    intro h
    rw [List.map_cons, lookupFile] at h
    by_cases ha : a.file = f
    · rw [if_pos ha] at h
      exact ⟨0, a, by simp, ha, Option.some.inj h⟩
    · rw [if_neg ha] at h
      obtain ⟨i, e1, hget, hf, hp⟩ := ih h
      exact ⟨i + 1, e1, by simpa using hget, hf, hp⟩

theorem findDupAux_eq_some (es : List Episode) :
    ∀ (pfx : List Episode) (f p1 p2 : String),
      findDupAux (pfx.map (fun e => (e.file, e.path))) es = some (f, p1, p2) →
      dupWitnessAt (pfx ++ es) f p1 p2 := by
  induction es with
  | nil => intro pfx f p1 p2 h; simp [findDupAux] at h
  | cons e rest ih =>
    intro pfx f p1 p2 h
    rw [findDupAux] at h
    cases hl : lookupFile e.file (pfx.map (fun e => (e.file, e.path))) with
    | some p =>
      rw [hl] at h
      obtain ⟨rfl, rfl, rfl⟩ : e.file = f ∧ p = p1 ∧ e.path = p2 := by
        simpa using h
      obtain ⟨i, e1, hget, hf, hp⟩ := lookupFile_pairs pfx e.file p hl
      have hi : i < pfx.length := (List.getElem?_eq_some_iff.mp hget).1
      refine ⟨i, pfx.length, e1, e, hi, ?_, ?_, hf, hp, rfl, rfl⟩
      · rw [List.getElem?_append_left hi]; exact hget
      · rw [List.getElem?_append_right (Nat.le_refl pfx.length)]
        simp
    | none =>
      rw [hl] at h
      have hmap : (pfx.map (fun e => (e.file, e.path))) ++ [(e.file, e.path)] =
          (pfx ++ [e]).map (fun e => (e.file, e.path)) := by
        rw [List.map_append]; rfl
      rw [hmap] at h
      have := ih (pfx ++ [e]) f p1 p2 h
      rwa [List.append_assoc, List.singleton_append] at this

theorem dupWitnessAt_append (es es' : List Episode) (f p1 p2 : String)
    (h : dupWitnessAt es f p1 p2) : dupWitnessAt (es ++ es') f p1 p2 := by
  obtain ⟨i, j, e1, e2, hij, h1, h2, hf1, hp1, hf2, hp2⟩ := h
  refine ⟨i, j, e1, e2, hij, ?_, ?_, hf1, hp1, hf2, hp2⟩
  · rw [List.getElem?_append_left (List.getElem?_eq_some_iff.mp h1).1]; exact h1
  · rw [List.getElem?_append_left (List.getElem?_eq_some_iff.mp h2).1]; exact h2

theorem findDup_eq_none_iff (es : List Episode) :
    findDup es = none ↔ (filesOf es).Nodup := by
  rw [findDup, findDupAux_eq_none]
  simp [lookupFile]

theorem findDup_eq_some (es : List Episode) (f p1 p2 : String)
    (h : findDup es = some (f, p1, p2)) : dupWitnessAt es f p1 p2 := by
  have := findDupAux_eq_some es [] f p1 p2 (by simpa [findDup] using h)
  simpa using this

theorem lookupFile_map_find (l : List Episode) (f : String) :
    lookupFile f (l.map (fun e => (e.file, e.path))) =
      (l.find? (fun a => decide (a.file = f))).map Episode.path := by
  induction l with
  | nil => simp [lookupFile]
  | cons a rest ih =>
    rw [List.map_cons, lookupFile, List.find?_cons]
    by_cases ha : a.file = f
    · simp [ha]
    · simp [ha, ih]

theorem specFirstDuplicateAux_eq (es : List Episode) :
    ∀ pfx : List Episode,
      findDupAux (pfx.map (fun e => (e.file, e.path))) es =
        specFirstDuplicateAux pfx es := by
  induction es with
  | nil => intro pfx; rfl
  | cons e rest ih =>
    intro pfx
    rw [findDupAux, specFirstDuplicateAux, lookupFile_map_find]
    cases hf : pfx.find? (fun a => decide (a.file = e.file)) with
    | some a => rfl
    | none =>
      simp only [Option.map_none']
      have hmap : (pfx.map (fun e => (e.file, e.path))) ++ [(e.file, e.path)] =
          (pfx ++ [e]).map (fun e => (e.file, e.path)) := by
        rw [List.map_append]; rfl
      rw [hmap]
      exact ih (pfx ++ [e])

/-! ### Loader lemmas -/

theorem loadDocs_append_ok (parse : MetaParse) (xs : List (String × List Byte)) :
    ∀ (ys : List (String × List Byte)) (exs : List Episode),
      loadDocs parse xs = .ok exs →
      loadDocs parse (xs ++ ys) =
        match loadDocs parse ys with
        | .ok eys => .ok (exs ++ eys)
        | .error e => .error e := by
  induction xs with
  | nil =>
    intro ys exs h
    rw [loadDocs] at h
    obtain rfl : ([] : List Episode) = exs := by simpa using h
    simp only [List.nil_append]
    cases loadDocs parse ys <;> simp
  | cons d rest ih =>
    intro ys exs h
    rw [loadDocs] at h
    cases hd : docLoad parse d with
    | error e => rw [hd] at h; exact absurd h (by simp)
    | ok ep =>
      rw [hd] at h
      cases hr : loadDocs parse rest with
      | error e => rw [hr] at h; exact absurd h (by simp)
      | ok eps =>
        rw [hr] at h
        obtain rfl : ep :: eps = exs := by simpa using h
        rw [List.cons_append, loadDocs, hd, ih ys eps hr]
        cases loadDocs parse ys <;> simp

theorem loadDocs_length (parse : MetaParse) (xs : List (String × List Byte)) :
    ∀ exs : List Episode, loadDocs parse xs = .ok exs → exs.length = xs.length := by
  induction xs with
  | nil =>
    intro exs h
    rw [loadDocs] at h
    obtain rfl : ([] : List Episode) = exs := by simpa using h
    rfl
  | cons d rest ih =>
    intro exs h
    rw [loadDocs] at h
    cases hd : docLoad parse d with
    | error e => rw [hd] at h; exact absurd h (by simp)
    | ok ep =>
      rw [hd] at h
      cases hr : loadDocs parse rest with
      | error e => rw [hr] at h; exact absurd h (by simp)
      | ok eps =>
        rw [hr] at h
        obtain rfl : ep :: eps = exs := by simpa using h
        simpa using ih eps hr

theorem loadDocs_mid_error (parse : MetaParse) (xs : List (String × List Byte))
    (d : String × List Byte) (ys : List (String × List Byte))
    (exs : List Episode) (err : LoadError)
    (hxs : loadDocs parse xs = .ok exs) (hd : docLoad parse d = .error err) :
    loadDocs parse (xs ++ d :: ys) = .error err := by
  rw [loadDocs_append_ok parse xs (d :: ys) exs hxs, loadDocs, hd]

theorem seriesEps_eq (parse : MetaParse) (s : List (String × List Byte))
    (eps : List Episode) (h : loadDocs parse s = .ok eps) :
    seriesEps parse s = eps := by
  rw [seriesEps, h]

theorem episodesOf_cons (parse : MetaParse) (s : List (String × List Byte))
    (rest : List (List (String × List Byte))) :
    episodesOf parse (s :: rest) = seriesEps parse s ++ episodesOf parse rest := by
  rw [episodesOf, List.map_cons, List.flatten_cons, episodesOf]

theorem episodesOf_nil (parse : MetaParse) : episodesOf parse [] = [] := rfl

theorem filesOf_append (a b : List Episode) :
    filesOf (a ++ b) = filesOf a ++ filesOf b := by
  rw [filesOf, List.map_append, filesOf, filesOf]

theorem load_episodes_aux_advance (parse : MetaParse)
    (pre : List (List (String × List Byte))) :
    ∀ (acc : List Episode) (rest : List (List (String × List Byte))),
      (∀ s ∈ pre, (loadDocs parse s).isOk = true) →
      (filesOf (acc ++ episodesOf parse pre)).Nodup →
      load_episodes_aux parse acc (pre ++ rest) =
        load_episodes_aux parse (acc ++ episodesOf parse pre) rest := by
  induction pre with
  | nil =>
    intro acc rest _ _
    rw [episodesOf_nil, List.append_nil, List.nil_append]
  | cons s pre ih =>
    intro acc rest hok hnd
    have hs := hok s (List.mem_cons_self s pre)
    cases hl : loadDocs parse s with
    | error e => rw [hl] at hs; exact absurd hs (by simp [Except.isOk, Except.toBool])
    | ok eps =>
      have hco : episodesOf parse (s :: pre) = eps ++ episodesOf parse pre := by
        rw [episodesOf_cons, seriesEps_eq parse s eps hl]
      rw [hco] at hnd
      have hnd2 : (filesOf ((acc ++ eps) ++ episodesOf parse pre)).Nodup := by
        rwa [List.append_assoc]
      have hnd1 : (filesOf (acc ++ eps)).Nodup := by
        rw [filesOf_append] at hnd2
        exact List.Nodup.of_append_left hnd2
      have hdup : findDup (acc ++ eps) = none :=
        (findDup_eq_none_iff (acc ++ eps)).mpr hnd1
      rw [List.cons_append]
      simp only [load_episodes_aux, hl, hdup]
      rw [ih (acc ++ eps) rest (fun t ht => hok t (List.mem_cons_of_mem s ht)) hnd2]
      rw [hco, List.append_assoc]

theorem load_episodes_aux_dup (parse : MetaParse)
    (tree : List (List (String × List Byte))) :
    ∀ acc : List Episode,
      (∀ s ∈ tree, (loadDocs parse s).isOk = true) →
      (filesOf acc).Nodup →
      ¬ (filesOf (acc ++ episodesOf parse tree)).Nodup →
      ∃ f p1 p2, load_episodes_aux parse acc tree = .error (.duplicateFile f p1 p2) ∧
        dupWitnessAt (acc ++ episodesOf parse tree) f p1 p2 := by
  induction tree with
  | nil =>
    intro acc _ hnd hnnd
    rw [episodesOf_nil, List.append_nil] at hnnd
    exact absurd hnd hnnd
  | cons s rest ih =>
    intro acc hok hnd hnnd
    have hs := hok s (List.mem_cons_self s rest)
    cases hl : loadDocs parse s with
    | error e => rw [hl] at hs; exact absurd hs (by simp [Except.isOk, Except.toBool])
    | ok eps =>
      have hco : episodesOf parse (s :: rest) = eps ++ episodesOf parse rest := by
        rw [episodesOf_cons, seriesEps_eq parse s eps hl]
      cases hd : findDup (acc ++ eps) with
      | some t =>
        obtain ⟨f, p1, p2⟩ := t
        refine ⟨f, p1, p2, ?_, ?_⟩
        · simp only [load_episodes_aux, hl, hd]
        · have hw := findDup_eq_some (acc ++ eps) f p1 p2 hd
          have := dupWitnessAt_append (acc ++ eps) (episodesOf parse rest) f p1 p2 hw
          rwa [hco, ← List.append_assoc]
      | none =>
        have hnd1 : (filesOf (acc ++ eps)).Nodup := (findDup_eq_none_iff _).mp hd
        have hnnd2 : ¬ (filesOf ((acc ++ eps) ++ episodesOf parse rest)).Nodup := by
          rw [List.append_assoc]
          rwa [hco] at hnnd
        obtain ⟨f, p1, p2, herr, hw⟩ :=
          ih (acc ++ eps) (fun t ht => hok t (List.mem_cons_of_mem s ht)) hnd1 hnnd2
        refine ⟨f, p1, p2, ?_, ?_⟩
        · simp only [load_episodes_aux, hl, hd]
          exact herr
        · rwa [hco, ← List.append_assoc]

/-! ### Claim theorems -/

/-- C1: For every document that passes the hygiene, opening-delimiter and
closing-delimiter checks (closing `---` found at byte index `i`), rejoining
the splitter's outputs — the opening delimiter line `content[0..4]`, the
metadata region `content[4..i]`, the closing delimiter `content[i..i+4]` and
the body region `content[i+4..]` — reproduces the original document
byte-for-byte. -/
theorem c1_split_rejoin_roundtrip (content : List Byte) (i : Nat)
    (hhyg : hygieneOk content = true)
    (hopen : openingDelim.isPrefixOf content = true)
    (hclose : findClosing content = some i) :
    content.take 4 ++ extract content 4 i ++ extract content i (i + 4) ++
      content.drop (i + 4) = content := by
  have h4 : 4 ≤ i := by
    rw [findClosing] at hclose
    obtain ⟨j, hj, hi⟩ := Option.map_eq_some'.mp hclose
    omega
  rw [List.append_assoc, List.append_assoc]
  rw [extract_append_drop content i (i + 4) (Nat.le_add_right i 4)]
  rw [extract_append_drop content 4 i h4]
  exact List.take_append_drop 4 content

/-- Witness for C1 at a concrete valid document. -/
theorem c1_roundtrip_witness :
    hygieneOk (utf8Bytes "---\nA\n---\nreal") = true ∧
      (utf8Bytes "---\nA\n---\nreal").take 4 ++
          extract (utf8Bytes "---\nA\n---\nreal") 4 6 ++
          extract (utf8Bytes "---\nA\n---\nreal") 6 10 ++
          (utf8Bytes "---\nA\n---\nreal").drop 10 =
        utf8Bytes "---\nA\n---\nreal" :=
  ⟨by decide,
   c1_split_rejoin_roundtrip (utf8Bytes "---\nA\n---\nreal") 6
     (by decide) (by decide) (by decide)⟩

/-- C10: For every successfully loaded episode, the returned record is the
parser's record with `path` overwritten to the document's filesystem location
and `body` overwritten to the text after the closing delimiter — whatever
`path`/`body` the front matter itself supplied never reaches the output. -/
theorem c10_path_body_overwritten (parse : MetaParse) (path : String)
    (content : List Byte) (ep : Episode)
    (h : load_episode parse path content = .ok ep) :
    ep.path = path ∧ ∃ (i : Nat) (fm : Episode), findClosing content = some i ∧
      parse (extract content 4 i) = .ok fm ∧
      ep = { fm with path := path, body := content.drop (i + 4) } := by
  rw [load_episode] at h
  split at h
  · exact absurd h (by simp)
  split at h
  · exact absurd h (by simp)
  split at h
  · split at h
    · exact absurd h (by simp)
    · rename_i index hclose
      split at h
      · exact absurd h (by simp)
      · rename_i fm hparse
        split at h
        · obtain rfl := Except.ok.inj h
          exact ⟨rfl, index, fm, hclose, hparse, rfl⟩
        · exact absurd h (by simp)
  · exact absurd h (by simp)

/-- Witness for C10: even with a parser that fills `path`/`body` from the
front matter (`parseEvil`), the loaded record carries the filesystem path and
the document body. -/
theorem c10_overwrite_witness :
    epW10.path = "w10.md" ∧ ∃ (i : Nat) (fm : Episode),
      findClosing docW10 = some i ∧
      parseEvil (extract docW10 4 i) = .ok fm ∧
      epW10 = { fm with path := "w10.md", body := docW10.drop (i + 4) } :=
  c10_path_body_overwritten parseEvil "w10.md" docW10 epW10 (by decide)

/-- C9 failing-input evaluation:  A document whose text ends exactly at
the closing `---` defeats the claimed bound: the closing delimiter is found
at `i = 13` but the body offset `i + 4 = 17` exceeds the document length 16,
so `content[index + 4..]` is out of range and the Rust code panics instead of
returning a record. -/
theorem c9_body_slice_out_of_bounds :
    findClosing docAtEnd = some 13 ∧ docAtEnd.length = 16 ∧
      isCharBoundary docAtEnd (13 + 4) = false ∧
      load_episode parseStub "at-end.md" docAtEnd =
        .error (.bodySlicePanic "at-end.md") := by
  decide

/-- C3 counterexample:  A document containing both the abnormal dash
and a smart quote fails with the dash error, not the quote error (the dash
check runs first), refuting the claim that every document containing a
smart-quote glyph fails with the quote-hygiene error. -/
theorem c3_quote_claim_counterexample :
    (smartQuotesBytes.any fun q => containsSub q (utf8Bytes "⁃“")) = true ∧
      load_episode parseStub "c3.md" (utf8Bytes "⁃“") =
        .error (.abnormalDash "c3.md") ∧
      load_episode parseStub "c3.md" (utf8Bytes "⁃“") ≠
        .error (.smartQuote "c3.md") := by
  decide

/-- C3 amended:  A document containing the abnormal dash fails with the
dash-hygiene error regardless of anything else; a document containing a smart
quote but no abnormal dash fails with the quote-hygiene error; the two
messages differ and both include the document path. -/
theorem c3_hygiene_errors (parse : MetaParse) (path : String) (content : List Byte) :
    (containsSub abnormalDashBytes content = true →
      load_episode parse path content = .error (.abnormalDash path)) ∧
    (containsSub abnormalDashBytes content = false →
      (smartQuotesBytes.any fun q => containsSub q content) = true →
      load_episode parse path content = .error (.smartQuote path)) ∧
    errMsg (.abnormalDash path) ≠ errMsg (.smartQuote path) ∧
    strContains (errMsg (.abnormalDash path)) path ∧
    strContains (errMsg (.smartQuote path)) path := by
  refine ⟨?_, ?_, ?_, ?_, ?_⟩
  · intro h
    simp [load_episode, h]
  · intro h1 h2
    simp [load_episode, h1, h2]
  · intro h
    have h2 := congrArg (fun s : String => s.data.length) h
    simp only [errMsg, strData_append, List.length_append] at h2
    have e1 : ("Abnormal dash found in: ").data.length = 24 := rfl
    have e2 : ("Smart quote found in: ").data.length = 22 := rfl
    have e3 : (". Please replace it with a normal quote.").data.length = 40 := rfl
    rw [e1, e2, e3] at h2
    omega
  · exact strContains_append_right _ path
  · exact strContains_mid _ path _

/-- Witness for the amended C3 at concrete documents containing only the dash
and only a quote. -/
theorem c3_hygiene_witness :
    load_episode parseStub "c3a.md" (utf8Bytes "---\n⁃\n---\nx") =
        .error (.abnormalDash "c3a.md") ∧
      load_episode parseStub "c3b.md" (utf8Bytes "---\n“\n---\nx") =
        .error (.smartQuote "c3b.md") :=
  ⟨(c3_hygiene_errors parseStub "c3a.md" (utf8Bytes "---\n⁃\n---\nx")).1 (by decide),
   (c3_hygiene_errors parseStub "c3b.md" (utf8Bytes "---\n“\n---\nx")).2.1
     (by decide) (by decide)⟩

/-- C4 counterexample:  The abnormal-dash-only document does not begin
with the opening delimiter yet fails with the dash-hygiene error, not the
"does not start with delimiter" error: the hygiene scan runs first. -/
theorem c4_counterexample :
    openingDelim.isPrefixOf (utf8Bytes "⁃") = false ∧
      load_episode parseStub "c4.md" (utf8Bytes "⁃") =
        .error (.abnormalDash "c4.md") ∧
      load_episode parseStub "c4.md" (utf8Bytes "⁃") ≠
        .error (.noOpening "c4.md") := by
  decide

/-- C4 amended:  Every document that passes content hygiene and does not
begin with `---` plus newline — including the zero-length document — fails
with the "does not start with delimiter" error, whose message includes the
path. -/
theorem c4_missing_opening (parse : MetaParse) (path : String) (content : List Byte)
    (hhyg : hygieneOk content = true)
    (hopen : openingDelim.isPrefixOf content = false) :
    load_episode parse path content = .error (.noOpening path) ∧
      strContains (errMsg (.noOpening path)) path := by
  obtain ⟨h1, h2⟩ := hygieneOk_spec content hhyg
  refine ⟨?_, strContains_append_right _ path⟩
  simp [load_episode, h1, h2, hopen]

/-- Witness for the amended C4 at the zero-length document. -/
theorem c4_empty_document_witness :
    load_episode parseStub "empty.md" [] = .error (.noOpening "empty.md") ∧
      strContains (errMsg (.noOpening "empty.md")) "empty.md" :=
  c4_missing_opening parseStub "empty.md" [] (by decide) (by decide)

/-- C5 counterexample:  A document that starts with the opening
delimiter, has no further `---`, but contains a smart quote fails with the
quote-hygiene error, not the missing-closing-delimiter error: the hygiene
scan runs first. -/
theorem c5_counterexample :
    openingDelim.isPrefixOf (utf8Bytes "---\n“x") = true ∧
      findClosing (utf8Bytes "---\n“x") = none ∧
      load_episode parseStub "c5.md" (utf8Bytes "---\n“x") =
        .error (.smartQuote "c5.md") ∧
      load_episode parseStub "c5.md" (utf8Bytes "---\n“x") ≠
        .error (.noClosing "c5.md") := by
  decide

/-- C5 amended:  For a document that passes hygiene and starts with the
opening delimiter: when no `---` occurs at or after byte offset 4, loading
fails with the missing-closing-delimiter error (message includes the path)
and indeed no `---` occurrence exists at any offset `≥ 4`; and when the
search succeeds at index `i`, then `i` is exactly the first `---` occurrence
at or after byte offset 4 — a plain first-occurrence search, not a
line-anchored or balanced one. -/
theorem c5_missing_closing (parse : MetaParse) (path : String) (content : List Byte)
    (hhyg : hygieneOk content = true)
    (hopen : openingDelim.isPrefixOf content = true) :
    (findClosing content = none →
      load_episode parse path content = .error (.noClosing path) ∧
        strContains (errMsg (.noClosing path)) path ∧
        ∀ j, 4 ≤ j → dashes.isPrefixOf (content.drop j) = false) ∧
    (∀ i, findClosing content = some i →
      4 ≤ i ∧ dashes.isPrefixOf (content.drop i) = true ∧
        ∀ j, 4 ≤ j → j < i → dashes.isPrefixOf (content.drop j) = false) := by
  obtain ⟨h1, h2⟩ := hygieneOk_spec content hhyg
  constructor
  · intro hclose
    refine ⟨by simp [load_episode, h1, h2, hopen, hclose], strContains_mid _ path _, ?_⟩
    rw [findClosing, Option.map_eq_none'] at hclose
    intro j hj
    have hstep := findSub_eq_none dashes (content.drop 4) hclose (j - 4)
    rw [List.drop_drop] at hstep
    have e : 4 + (j - 4) = j := by omega
    rwa [e] at hstep
  · intro i hclose
    rw [findClosing, Option.map_eq_some'] at hclose
    obtain ⟨j0, hj0, hi⟩ := hclose
    obtain ⟨hpre, hmin⟩ := findSub_eq_some dashes (content.drop 4) j0 hj0
    have h4i : 4 ≤ i := by omega
    refine ⟨h4i, ?_, ?_⟩
    · rw [List.drop_drop] at hpre
      have e : 4 + j0 = i := by omega
      rwa [e] at hpre
    · intro j hj hji
      have hlt : j - 4 < j0 := by omega
      have hstep := hmin (j - 4) hlt
      rw [List.drop_drop] at hstep
      have e : 4 + (j - 4) = j := by omega
      rwa [e] at hstep

/-- Witness for the amended C5 at a concrete document with no closing
delimiter. -/
theorem c5_missing_closing_witness :
    load_episode parseStub "c5w.md" (utf8Bytes "---\nabc") =
        .error (.noClosing "c5w.md") ∧
      strContains (errMsg (.noClosing "c5w.md")) "c5w.md" :=
  ⟨((c5_missing_closing parseStub "c5w.md" (utf8Bytes "---\nabc")
      (by decide) (by decide)).1 (by decide)).1,
   ((c5_missing_closing parseStub "c5w.md" (utf8Bytes "---\nabc")
      (by decide) (by decide)).1 (by decide)).2.1⟩

theorem strContains_build (hay p : String) (s t : List Char)
    (h : s ++ p.data ++ t = hay.data) : strContains hay p :=
  ⟨s, t, h⟩

theorem episodesOf_length (parse : MetaParse)
    (tree : List (List (String × List Byte)))
    (hok : ∀ s ∈ tree, (loadDocs parse s).isOk = true) :
    (episodesOf parse tree).length = (tree.map List.length).sum := by
  induction tree with
  | nil => simp [episodesOf]
  | cons s rest ih =>
    have hs := hok s (List.mem_cons_self s rest)
    cases hl : loadDocs parse s with
    | error e => rw [hl] at hs; exact absurd hs (by simp [Except.isOk, Except.toBool])
    | ok eps =>
      rw [episodesOf_cons, List.length_append, seriesEps_eq parse s eps hl,
          loadDocs_length parse s eps hl, List.map_cons, List.sum_cons,
          ih (fun t ht => hok t (List.mem_cons_of_mem s ht))]

/-- C2:  Over a tree whose documents all load individually: if two of the
resulting episodes (in the same or different series) carry identical `file`
strings, the whole load fails with a duplicate-media-file error whose message
names the shared value, the earlier-seen episode's path and the
currently-checked episode's path; and if all `file` values are pairwise
distinct, the load succeeds and returns exactly one record per document —
`Σ Mi` records for `N` series of `Mi` documents each. -/
theorem c2_duplicates_and_counts (parse : MetaParse)
    (tree : List (List (String × List Byte)))
    (hall : allDocsOk parse tree = true) :
    (¬ (filesOf (episodesOf parse tree)).Nodup →
      ∃ f p1 p2, load_episodes parse tree = .error (.duplicateFile f p1 p2) ∧
        dupWitnessAt (episodesOf parse tree) f p1 p2 ∧
        strContains (errMsg (.duplicateFile f p1 p2)) f ∧
        strContains (errMsg (.duplicateFile f p1 p2)) p1 ∧
        strContains (errMsg (.duplicateFile f p1 p2)) p2) ∧
    ((filesOf (episodesOf parse tree)).Nodup →
      load_episodes parse tree = .ok (episodesOf parse tree) ∧
        (episodesOf parse tree).length = (tree.map List.length).sum) := by
  rw [allDocsOk, List.all_eq_true] at hall
  constructor
  · intro hnnd
    obtain ⟨f, p1, p2, herr, hw⟩ :=
      load_episodes_aux_dup parse tree [] hall (by simp [filesOf])
        (by simpa using hnnd)
    refine ⟨f, p1, p2, herr, by simpa using hw, ?_, ?_, ?_⟩
    · exact strContains_build _ f ("The same mp3 file ").data
        ((" was used twice in " ++ p1 ++ " and in " ++ p2).data)
        (by simp [errMsg, strData_append, List.append_assoc])
    · exact strContains_build _ p1
        (("The same mp3 file " ++ f ++ " was used twice in ").data)
        ((" and in " ++ p2).data)
        (by simp [errMsg, strData_append, List.append_assoc])
    · exact strContains_build _ p2
        (("The same mp3 file " ++ f ++ " was used twice in " ++ p1 ++ " and in ").data)
        ([])
        (by simp [errMsg, strData_append, List.append_assoc])
  · intro hnd
    have hadv := load_episodes_aux_advance parse tree [] [] hall (by simpa using hnd)
    rw [List.append_nil] at hadv
    refine ⟨?_, episodesOf_length parse tree hall⟩
    rw [load_episodes, hadv, List.nil_append]
    rfl

/-- Witness for C2: a two-series tree with a shared `file` value fails with
the duplicate error; the same tree with distinct `file` values loads both
records. -/
theorem c2_duplicates_witness :
    (∃ f p1 p2, load_episodes parseStub treeDup = .error (.duplicateFile f p1 p2) ∧
      dupWitnessAt (episodesOf parseStub treeDup) f p1 p2 ∧
      strContains (errMsg (.duplicateFile f p1 p2)) f ∧
      strContains (errMsg (.duplicateFile f p1 p2)) p1 ∧
      strContains (errMsg (.duplicateFile f p1 p2)) p2) ∧
    (load_episodes parseStub treeOk = .ok (episodesOf parseStub treeOk) ∧
      (episodesOf parseStub treeOk).length = (treeOk.map List.length).sum) :=
  ⟨(c2_duplicates_and_counts parseStub treeDup (by decide)).1 (by decide),
   (c2_duplicates_and_counts parseStub treeOk (by decide)).2 (by decide)⟩

theorem episodesOf_append (parse : MetaParse)
    (t1 t2 : List (List (String × List Byte))) :
    episodesOf parse (t1 ++ t2) = episodesOf parse t1 ++ episodesOf parse t2 := by
  rw [episodesOf, List.map_append, List.flatten_append, episodesOf, episodesOf]

/-- C6 counterexample:  In `treeC6` the only non-markdown entry is
`c.txt` and every markdown document is well-formed, yet the load fails with
the duplicate-media-file error (raised at the boundary of the first series)
rather than the unexpected-file-type error. -/
theorem c6_counterexample :
    extension "c.txt" = some "txt" ∧
      load_episodes parseStub treeC6 = .error (.duplicateFile "A\n" "a.md" "b.md") ∧
      load_episodes parseStub treeC6 ≠ .error (.notMarkdown "c.txt") := by
  decide

/-- C6 amended:  A document-level entry whose extension is not `md`
makes the whole load fail with the not-a-markdown-file error — regardless of
everything after it — provided the documents before it are well-formed and
the series preceding its series carry no duplicate `file` values (otherwise
the duplicate guard at an earlier series boundary fires first). -/
theorem c6_unexpected_file_type (parse : MetaParse)
    (pre : List (List (String × List Byte)))
    (s1 : List (String × List Byte)) (p : String) (c : List Byte)
    (e : String) (s2 : List (String × List Byte))
    (post : List (List (String × List Byte)))
    (hpre : ∀ s ∈ pre, (loadDocs parse s).isOk = true)
    (hnd : (filesOf (episodesOf parse pre)).Nodup)
    (hs1 : (loadDocs parse s1).isOk = true)
    (hext : extension p = some e) (hne : e ≠ "md") :
    load_episodes parse (pre ++ (s1 ++ (p, c) :: s2) :: post) =
      .error (.notMarkdown p) := by
  have hdoc : docLoad parse (p, c) = .error (.notMarkdown p) := by
    rw [docLoad]
    simp [hext, hne]
  obtain ⟨exs, hexs⟩ : ∃ exs, loadDocs parse s1 = .ok exs := by
    cases hl : loadDocs parse s1 with
    | error er => rw [hl] at hs1; exact absurd hs1 (by simp [Except.isOk, Except.toBool])
    | ok exs => exact ⟨exs, rfl⟩
  have hser : loadDocs parse (s1 ++ (p, c) :: s2) = .error (.notMarkdown p) :=
    loadDocs_mid_error parse s1 (p, c) s2 exs _ hexs hdoc
  rw [load_episodes,
    load_episodes_aux_advance parse pre [] ((s1 ++ (p, c) :: s2) :: post) hpre
      (by simpa using hnd), List.nil_append]
  simp only [load_episodes_aux, hser]

/-- Witness for the amended C6: a valid series followed by a `c.txt` entry
fails with the not-a-markdown-file error. -/
theorem c6_unexpected_file_type_witness :
    load_episodes parseStub ([[("a.md", docA)]] ++ ([] ++ ("c.txt", []) :: []) :: []) =
      .error (.notMarkdown "c.txt") :=
  c6_unexpected_file_type parseStub [[("a.md", docA)]] [] "c.txt" [] "txt" [] []
    (by decide) (by decide) (by decide) (by decide) (by decide)

/-- C7:  Per document the pipeline is: hygiene validator (dash before
quote) → splitter (opening then closing delimiter) → front-matter parser,
and the first failing stage's error is the loader's result; at the loader
level the first failing document aborts the whole run — documents after it,
in its series or later series, are never consulted — and after each series
the duplicate guard runs against every episode accumulated so far, so a
conflict surfaces at the series boundary even when later series would
themselves fail. -/
theorem c7_pipeline_and_guard_order :
    (∀ (parse : MetaParse) (path : String) (content : List Byte),
      containsSub abnormalDashBytes content = true →
        load_episode parse path content = .error (.abnormalDash path)) ∧
    (∀ (parse : MetaParse) (path : String) (content : List Byte),
      containsSub abnormalDashBytes content = false →
      (smartQuotesBytes.any fun q => containsSub q content) = true →
        load_episode parse path content = .error (.smartQuote path)) ∧
    (∀ (parse : MetaParse) (path : String) (content : List Byte),
      hygieneOk content = true → openingDelim.isPrefixOf content = false →
        load_episode parse path content = .error (.noOpening path)) ∧
    (∀ (parse : MetaParse) (path : String) (content : List Byte),
      hygieneOk content = true → openingDelim.isPrefixOf content = true →
      findClosing content = none →
        load_episode parse path content = .error (.noClosing path)) ∧
    (∀ (parse : MetaParse) (path : String) (content : List Byte) (i : Nat) (msg : String),
      hygieneOk content = true → openingDelim.isPrefixOf content = true →
      findClosing content = some i → parse (extract content 4 i) = .error msg →
        load_episode parse path content = .error (.parseFail msg path)) ∧
    (∀ (parse : MetaParse) (pre : List (List (String × List Byte)))
        (s1 : List (String × List Byte)) (d : String × List Byte)
        (s2 : List (String × List Byte)) (post : List (List (String × List Byte)))
        (err : LoadError),
      (∀ s ∈ pre, (loadDocs parse s).isOk = true) →
      (filesOf (episodesOf parse pre)).Nodup →
      (loadDocs parse s1).isOk = true →
      docLoad parse d = .error err →
        load_episodes parse (pre ++ (s1 ++ d :: s2) :: post) = .error err) ∧
    (∀ (parse : MetaParse) (pre : List (List (String × List Byte)))
        (s : List (String × List Byte)) (post : List (List (String × List Byte)))
        (f p1 p2 : String),
      (∀ t ∈ pre, (loadDocs parse t).isOk = true) →
      (filesOf (episodesOf parse pre)).Nodup →
      (loadDocs parse s).isOk = true →
      findDup (episodesOf parse (pre ++ [s])) = some (f, p1, p2) →
        load_episodes parse (pre ++ s :: post) = .error (.duplicateFile f p1 p2)) := by
  refine ⟨?_, ?_, ?_, ?_, ?_, ?_, ?_⟩
  · intro parse path content h
    simp [load_episode, h]
  · intro parse path content h1 h2
    simp [load_episode, h1, h2]
  · intro parse path content hhyg hopen
    obtain ⟨h1, h2⟩ := hygieneOk_spec content hhyg
    simp [load_episode, h1, h2, hopen]
  · intro parse path content hhyg hopen hclose
    obtain ⟨h1, h2⟩ := hygieneOk_spec content hhyg
    simp [load_episode, h1, h2, hopen, hclose]
  · intro parse path content i msg hhyg hopen hclose hparse
    obtain ⟨h1, h2⟩ := hygieneOk_spec content hhyg
    simp [load_episode, h1, h2, hopen, hclose, hparse]
  · intro parse pre s1 d s2 post err hpre hnd hs1 hdoc
    obtain ⟨exs, hexs⟩ : ∃ exs, loadDocs parse s1 = .ok exs := by
      cases hl : loadDocs parse s1 with
      | error er => rw [hl] at hs1; exact absurd hs1 (by simp [Except.isOk, Except.toBool])
      | ok exs => exact ⟨exs, rfl⟩
    have hser : loadDocs parse (s1 ++ d :: s2) = .error err :=
      loadDocs_mid_error parse s1 d s2 exs err hexs hdoc
    rw [load_episodes,
      load_episodes_aux_advance parse pre [] ((s1 ++ d :: s2) :: post) hpre
        (by simpa using hnd), List.nil_append]
    simp only [load_episodes_aux, hser]
  · intro parse pre s post f p1 p2 hpre hnd hs hfd
    obtain ⟨eps, hl⟩ : ∃ eps, loadDocs parse s = .ok eps := by
      cases hl : loadDocs parse s with
      | error er => rw [hl] at hs; exact absurd hs (by simp [Except.isOk, Except.toBool])
      | ok eps => exact ⟨eps, rfl⟩
    have hfd2 : findDup (episodesOf parse pre ++ eps) = some (f, p1, p2) := by
      rw [episodesOf_append, episodesOf_cons, episodesOf_nil, List.append_nil,
        seriesEps_eq parse s eps hl] at hfd
      exact hfd
    rw [load_episodes,
      load_episodes_aux_advance parse pre [] (s :: post) hpre (by simpa using hnd),
      List.nil_append]
    simp only [load_episodes_aux, hl, hfd2]

/-- Witness for C7: the parser error is reported for a document that passed
hygiene and splitting, and a duplicate spanning two series aborts the run at
the series boundary even though a later series contains an entry that would
itself fail. -/
theorem c7_pipeline_witness :
    load_episode parseReject "c7.md" docA = .error (.parseFail "boom" "c7.md") ∧
      load_episodes parseStub ([[("a.md", docA)]] ++ [("b.md", docA2)] :: [[("zzz", [])]]) =
        .error (.duplicateFile "A\n" "a.md" "b.md") :=
  ⟨c7_pipeline_and_guard_order.2.2.2.2.1 parseReject "c7.md" docA 6 "boom"
      (by decide) (by decide) (by decide) (by decide),
   c7_pipeline_and_guard_order.2.2.2.2.2.2 parseStub [[("a.md", docA)]]
      [("b.md", docA2)] [[("zzz", [])]] "A\n" "a.md" "b.md"
      (by decide) (by decide) (by decide) (by decide)⟩

/-- C8:  The duplicate guard is a pure function of the accumulated
collection in its accumulated order — the map is only ever keyed and probed,
never iterated, so the hash map's internal order is irrelevant — and it
computes exactly the spec's first-conflicting-pair scan: the first episode
(in order) whose `file` value was already seen, reported with the shared
value, the earlier-seen path and the current path. -/
theorem c8_duplicate_guard_deterministic (es : List Episode) :
    findDup es = specFirstDuplicate es := by
  rw [findDup, specFirstDuplicate]
  have h := specFirstDuplicateAux_eq es []
  simpa using h
